import Mathlib

/-!
Verification of the Command Security Policy Engine of the obsidian-code
repository (BlocklistChecker and the PreToolUse security hooks).

Commands are modelled as `List Char`.  JavaScript string operations used by
the source (`String.prototype.replace` with the global regexes
`/''|""|``/`, `/\s+/`-splitting, `Array.prototype.join(' ')`,
`String.prototype.trim`, `Array.prototype.some`, `path.basename`) are
embedded as structurally recursive Lean functions over `List Char`,
restricted to the ASCII whitespace class (the commands the hooks inspect
are ASCII shell commands).

JavaScript regular expressions built from user blocklist patterns cannot be
embedded in full generality; `parseRegexGo` parses the fragment of the JS
regex grammar actually exercised by the source (literal characters,
identity escapes, the word-boundary assertion `\b`, and enough of the
syntax to recognise the invalid patterns the source's try/catch handles).
Patterns outside that fragment make the derived functions return `none`:
`none` is incompleteness of the embedding, never a behaviour of the code.
-/

/-- ASCII whitespace, the characters matched by the `\s` class of the
source's `/\s+/` split for ASCII input. -/
def isWs (c : Char) : Bool :=
  c = ' ' || c = '\t' || c = '\n' || c = '\r' || c = '\x0B' || c = '\x0C'

/-- The single-quote character. -/
def squote : Char := Char.ofNat 39

/-- The double-quote character. -/
def dquote : Char := Char.ofNat 34

/-- The backtick character. -/
def btick : Char := Char.ofNat 96

/-- Characters that form the empty-quote pairs removed by `normalizeCommand`. -/
def isQuoteChar (c : Char) : Bool := c = squote || c = dquote || c = btick

/-- ASCII lower-casing, the effect of JavaScript `toLowerCase()` on ASCII text. -/
def toLowerChar (c : Char) : Char :=
  if 'A' ≤ c ∧ c ≤ 'Z' then Char.ofNat (c.toNat + 32) else c

/-- Lower-case every character of a string. -/
def toLowerStr (s : List Char) : List Char := s.map toLowerChar

/-- Word characters of JS regexes (`\w` = `[A-Za-z0-9_]`), used by the
word-boundary assertion `\b`. -/
def isWordChar (c : Char) : Bool :=
  ('a' ≤ c ∧ c ≤ 'z') || ('A' ≤ c ∧ c ≤ 'Z') || ('0' ≤ c ∧ c ≤ '9') || c = '_'

/-- Left trim of ASCII whitespace. -/
def ltrimWs (s : List Char) : List Char := s.dropWhile isWs

/-- Right trim of ASCII whitespace. -/
def rtrimWs (s : List Char) : List Char := (s.reverse.dropWhile isWs).reverse

/-- JavaScript `String.prototype.trim` for ASCII input. -/
def trimWs (s : List Char) : List Char := ltrimWs (rtrimWs s)

/-- A string with no whitespace character. -/
def wsFree (s : List Char) : Bool := s.all (fun c => !isWs c)

/-- Embedding of `normalized.replace(/''|""|``/g, '')` from
`normalizeCommand` (BlocklistChecker): a single left-to-right pass that
deletes each adjacent pair of identical empty quotes and scans on after the
deleted pair. -/
def removeEmptyQuotes : List Char → List Char
  | a :: b :: rest =>
      if a = b && isQuoteChar a then removeEmptyQuotes rest
      else a :: removeEmptyQuotes (b :: rest)
  | l => l

/-- Worker for `splitWs`.  `acc` holds the characters of the current field
in reverse; `inSep` records that the previous character was whitespace
already consumed by the separator run, mirroring the greedy `/\s+/`
separator of JavaScript `split`. -/
def splitWsGo : List Char → List Char → Bool → List (List Char)
  | [], acc, _ => [acc.reverse]
  | c :: rest, acc, inSep =>
      if isWs c then
        if inSep then splitWsGo rest acc true
        else acc.reverse :: splitWsGo rest [] true
      else splitWsGo rest (c :: acc) false

/-- Embedding of JavaScript `s.split(/\s+/)`: fields between maximal
whitespace runs, with an empty leading field when the string starts with
whitespace and an empty trailing field when it ends with whitespace. -/
def splitWs (s : List Char) : List (List Char) := splitWsGo s [] false

/-- Embedding of JavaScript `parts.join(' ')`. -/
def joinWithSpace : List (List Char) → List Char
  | [] => []
  | [f] => f
  | f :: rest => f ++ ' ' :: joinWithSpace rest

/-- Embedding of `parts[0].replace(/\\/g, '')`: delete every backslash. -/
def stripBackslashes (t : List Char) : List Char := t.filter (fun c => c ≠ '\\')

/-- Apply a function to the first element of a list, if any; the shape of
the `parts[0] = ...` mutation in `normalizeCommand`. -/
def applyFirst (g : List Char → List Char) : List (List Char) → List (List Char)
  | [] => []
  | f :: rest => g f :: rest

/-- Embedding of `normalizeCommand` (BlocklistChecker lines 20-37): remove
empty-quote pairs, split on whitespace runs, delete backslashes from
`parts[0]` only, and re-join with single spaces.  The `match` mirrors the
`if (parts.length > 0)` guard of the source (`splitWs` never returns an
empty array, exactly as in JavaScript). -/
def normalizeCommand (command : List Char) : List Char :=
  let normalized := removeEmptyQuotes command
  match splitWs normalized with
  | [] => normalized
  | p :: ps => joinWithSpace (stripBackslashes p :: ps)

/-- Embedding of Node's `path.basename` (posix rules as used by the
source's comment examples): drop trailing slashes, then take the final
slash-free component. -/
def basename (s : List Char) : List Char :=
  ((s.reverse.dropWhile (fun c => c = '/')).takeWhile (fun c => c ≠ '/')).reverse

/-- Embedding of `extractCommandName` (BlocklistChecker lines 46-49). -/
def extractCommandName (commandToken : List Char) : List Char := basename commandToken

/-- Worker for `splitSegments`: character-level split of the command on the
separator operators, longest first (`||` and `&&` before `|`, `;`, `&`),
keeping the raw text between operators.  `acc` holds the current field in
reverse. -/
def splitOpsGo : List Char → List Char → List (List Char)
  | [], acc => [acc.reverse]
  | '|' :: '|' :: rest, acc => acc.reverse :: splitOpsGo rest []
  | '&' :: '&' :: rest, acc => acc.reverse :: splitOpsGo rest []
  | c :: rest, acc =>
      if c = '|' || c = ';' || c = '&' then acc.reverse :: splitOpsGo rest []
      else splitOpsGo rest (c :: acc)

/-- Trim phase for all fields after the first: a field that both follows
and precedes an operator loses whitespace on both sides (the `\s*` halves
of the separator regex); the final field only loses leading whitespace. -/
def trimTailFields : List (List Char) → List (List Char)
  | [] => []
  | [f] => [ltrimWs f]
  | f :: rest => ltrimWs (rtrimWs f) :: trimTailFields rest

/-- Embedding of `command.split(/\s*(?:\|\||&&|[|;&])\s*/)` from
`extractAllCommandNames` (BlocklistChecker line 62).  Each separator match
is a maximal run `\s* operator \s*`, so the whitespace adjacent to an
operator is consumed by the separator: the first field keeps its leading
whitespace, the last keeps its trailing whitespace, and all other
whitespace touching an operator is dropped. -/
def splitSegments (s : List Char) : List (List Char) :=
  match splitOpsGo s [] with
  | [] => []
  | [f] => [f]
  | f :: rest => rtrimWs f :: trimTailFields rest

/-- The wrapper commands skipped when looking for the command token
(BlocklistChecker line 73). -/
def wrappers : List (List Char) :=
  ["sudo".toList, "env".toList, "command".toList, "nohup".toList,
   "nice".toList, "time".toList]

/-- Per-segment body of the loop of `extractAllCommandNames`
(BlocklistChecker lines 64-85): trim the segment, tokenize on whitespace,
start from `tokens[0]`, advance past leading wrapper tokens, and if the
walk found a non-wrapper token use it; a segment made only of wrappers
falls back to `tokens[0]`.  Returns `none` when the loop pushes nothing
(empty segment or empty command token). -/
def segmentName (segment : List Char) : Option (List Char) :=
  let trimmed := trimWs segment
  if trimmed = [] then none
  else
    let tokens := splitWs trimmed
    let cmdToken :=
      match tokens.dropWhile (fun t => wrappers.contains t) with
      | t :: _ => t
      | [] => tokens.headD []
    if cmdToken = [] then none else some (extractCommandName cmdToken)

/-- Embedding of `extractAllCommandNames` (BlocklistChecker lines 58-88). -/
def extractAllCommandNames (command : List Char) : List (List Char) :=
  (splitSegments command).filterMap segmentName

/-- Boolean prefix test on character lists. -/
def isPrefixB : List Char → List Char → Bool
  | [], _ => true
  | _ :: _, [] => false
  | a :: as, b :: bs => a = b && isPrefixB as bs

/-- Embedding of JavaScript `hay.includes(needle)`: substring containment. -/
def containsSub (hay needle : List Char) : Bool :=
  isPrefixB needle hay ||
    match hay with
    | [] => false
    | _ :: t => containsSub t needle

/-- Token of the modelled JS regex fragment: a literal character (matched
case-insensitively under the `'i'` flag) or the word-boundary assertion
`\b`. -/
inductive RTok where
  | lit (c : Char)
  | wordB
deriving DecidableEq

/-- Result of parsing a JS regex source string: a token list for patterns
inside the modelled fragment, `invalid` when `new RegExp(pattern)` throws a
`SyntaxError`, and `unsupported` when the pattern uses regex features the
embedding does not model (the embedding then refuses to decide, it never
guesses). -/
inductive RParse where
  | ok (toks : List RTok)
  | invalid
  | unsupported
deriving DecidableEq

/-- Characters whose identity escape `\c` is a literal in JS regexes. -/
def escapableChars : List Char :=
  ['\\', '^', '$', '.', '*', '+', '?', '(', ')', '[', ']', '-', '/', ' ']

/-- Regex metacharacters outside the modelled fragment. -/
def unsupportedBare : List Char :=
  ['^', '$', '.', '*', '+', '?', '(', ')', '{', '}', '|']

/-- Parser for the modelled JS regex fragment.  `\b` is the word-boundary
assertion; identity escapes of metacharacters are literals; a `[` with no
closing `]` is a SyntaxError in JavaScript (`invalid`), as is a trailing
backslash; all other metacharacters are outside the fragment. -/
def parseRegexGo : List Char → List RTok → RParse
  | [], acc => .ok acc.reverse
  | '\\' :: rest, acc =>
      match rest with
      | [] => .invalid
      | 'b' :: rest' => parseRegexGo rest' (.wordB :: acc)
      | c :: rest' =>
          if escapableChars.contains c then parseRegexGo rest' (.lit c :: acc)
          else .unsupported
  | '[' :: rest, _ => if rest.contains ']' then .unsupported else .invalid
  | c :: rest, acc =>
      if unsupportedBare.contains c then .unsupported
      else parseRegexGo rest (.lit c :: acc)

/-- Does the first character of the string count as a word character
(empty string counts as a non-word position)? -/
def headIsWord : List Char → Bool
  | [] => false
  | c :: _ => isWordChar c

/-- Match a token list at the current position.  `prevW` tells whether the
character just before the current position is a word character (false at
the start of the string). -/
def rtokMatch : List RTok → Bool → List Char → Bool
  | [], _, _ => true
  | .lit _ :: _, _, [] => false
  | .lit c :: ts, _, x :: xs =>
      toLowerChar x = toLowerChar c && rtokMatch ts (isWordChar x) xs
  | .wordB :: ts, prevW, s => (prevW != headIsWord s) && rtokMatch ts prevW s

/-- Try to match at every position of the string, tracking the wordness of
the previous character for `\b`. -/
def regexTestGo (toks : List RTok) : Bool → List Char → Bool
  | prevW, [] => rtokMatch toks prevW []
  | prevW, c :: cs => rtokMatch toks prevW (c :: cs) || regexTestGo toks (isWordChar c) cs

/-- Embedding of `new RegExp(src, 'i').test(s)` for a parsed token list. -/
def regexTest (toks : List RTok) (s : List Char) : Bool := regexTestGo toks false s

/-- Test of `/^[a-z0-9_-]+$/i` on the lower-cased trimmed pattern
(BlocklistChecker line 128). -/
def isSimplePattern (s : List Char) : Bool :=
  !s.isEmpty && s.all (fun c =>
    ('a' ≤ c ∧ c ≤ 'z') || ('A' ≤ c ∧ c ≤ 'Z') || ('0' ≤ c ∧ c ≤ '9') || c = '_' || c = '-')

/-- Per-pattern body of the `patterns.some(...)` callback of
`isCommandBlocked` (BlocklistChecker lines 114-146): empty pattern never
blocks; an exact case-insensitive match against an extracted command name
blocks; otherwise simple patterns are wrapped in `\b...\b` (unless the
user already wrote a `\b`) and tested as a regex against the normalized
command; regex construction failure falls back to case-insensitive
substring containment.  `none` when the pattern leaves the modelled regex
fragment. -/
def patternBlocks (normalizedCommand : List Char) (commandNames : List (List Char))
    (pattern : List Char) : Option Bool :=
  let patternLower := trimWs (toLowerStr pattern)
  if patternLower = [] then some false
  else if commandNames.any (fun n => toLowerStr n = patternLower) then some true
  else
    let regexSrc :=
      if isSimplePattern patternLower then
        if containsSub pattern ['\\', 'b'] then pattern
        else ['\\', 'b'] ++ pattern ++ ['\\', 'b']
      else pattern
    match parseRegexGo regexSrc [] with
    | .ok toks => some (regexTest toks normalizedCommand)
    | .invalid => some (containsSub (toLowerStr normalizedCommand) patternLower)
    | .unsupported => none

/-- Short-circuiting embedding of `patterns.some(f)` where the per-element
test may be undecided by the model. -/
def someOpt : List (List Char) → (List Char → Option Bool) → Option Bool
  | [], _ => some false
  | x :: xs, f =>
      match f x with
      | some true => some true
      | some false => someOpt xs f
      | none => none

/-- Embedding of `isCommandBlocked` (BlocklistChecker lines 99-148).
Returns `some b` when every consulted pattern stays inside the modelled
regex fragment, `none` otherwise. -/
def isCommandBlocked (command : List Char) (patterns : List (List Char))
    (enableBlocklist : Bool) : Option Bool :=
  if !enableBlocklist || command.isEmpty then some false
  else
    let normalizedCommand := normalizeCommand command
    let commandNames := extractAllCommandNames normalizedCommand
    someOpt patterns (patternBlocks normalizedCommand commandNames)

/-- The two outcomes `validateBlocklistPattern` can report besides plain
success: the hard error for an empty pattern, and the non-fatal warning
that an invalid regex will be matched as a substring (the warning's
message text is summarised by the tag). -/
inductive PatternIssue where
  | emptyPattern
  | invalidRegexWarning
deriving DecidableEq

/-- Result shape of `validateBlocklistPattern`. -/
structure ValidationResult where
  isValid : Bool
  issue : Option PatternIssue
deriving DecidableEq

/-- Embedding of `validateBlocklistPattern` (BlocklistChecker lines
156-171): empty patterns are invalid; patterns that fail to compile are
reported valid with a warning; `none` when the pattern leaves the modelled
regex fragment. -/
def validateBlocklistPattern (pattern : List Char) : Option ValidationResult :=
  if trimWs pattern = [] then some ⟨false, some .emptyPattern⟩
  else
    match parseRegexGo pattern [] with
    | .ok _ => some ⟨true, none⟩
    | .invalid => some ⟨true, some .invalidRegexWarning⟩
    | .unsupported => none

/-- Verdict of a PreToolUse hook: `cont` is `{ continue: true }`, `deny r`
is `{ continue: false, permissionDecision: 'deny',
permissionDecisionReason: r }`. -/
inductive Verdict where
  | cont
  | deny (reason : List Char)
deriving DecidableEq

/-- The `command` field of a Bash tool invocation as the hook may receive
it: absent, present but not a string, or a string. -/
inductive CmdField where
  | missing
  | nonString
  | str (s : List Char)

/-- Embedding of `extractBashCommand` (typeGuards.ts lines 92-97): a
missing or non-string command extracts as the empty string. -/
def extractBashCommand : CmdField → List Char
  | .str s => s
  | _ => []

/-- Deny reason of the blocklist hook (hooks file, line 50). -/
def blockedReason (command : List Char) : List Char :=
  ("Command blocked by blocklist: ").toList ++ command

/-- Embedding of the hook body of `createBlocklistHook` (hooks file, lines
36-56) for a Bash invocation: extract the command, consult
`isCommandBlocked`, deny with reason on a match, continue otherwise. -/
def runBlocklistHook (cmd : CmdField) (patterns : List (List Char))
    (enableBlocklist : Bool) : Option Verdict :=
  let command := extractBashCommand cmd
  match isCommandBlocked command patterns enableBlocklist with
  | some true => some (.deny (blockedReason command))
  | some false => some .cont
  | none => none

/-- Classification of a path against the sandbox boundary, the
`PathAccessType` consumed by the hooks (`export` is spelled `exportDir`
because `export` is a Lean keyword). -/
inductive PathAccessType where
  | vault
  | readwrite
  | context
  | exportDir
  | outside
deriving DecidableEq

/-- Variants of a dangerous shell construct, as consumed by the `switch`
of `createVaultRestrictionHook` (hooks file, lines 82-98). -/
inductive DConstructType where
  | command_substitution
  | backtick_substitution
  | process_substitution
  | hex_escape
  | dangerous_builtin
deriving DecidableEq

/-- A flagged dangerous construct: its variant, the matched literal (for
the substitution and escape variants) and the offending command name (for
`dangerous_builtin`). -/
structure DConstruct where
  type : DConstructType
  pattern : List Char
  command : List Char
deriving DecidableEq

/-- The dangerous builtins of the detector. -/
def dangerousBuiltins : List (List Char) :=
  ["eval".toList, "exec".toList, "source".toList]

/-- Modelled from the spec: `findDangerousConstruct` of
`BashPathValidator`, which is not under src/ (only its caller is).  Spec
section 4.3: scan the raw command, in priority order, for command
substitution `$(`, backtick substitution, process substitution `<(` or
`>(`, hex/octal escapes `\xNN` / `\0NN`, and a fixed list of dangerous
builtins appearing as a command name anywhere in the segmented command;
the first match wins and carries the matched literal or command. -/
def findDangerousConstruct (command : List Char) : Option DConstruct :=
  if containsSub command ['$', '('] then
    some ⟨.command_substitution, ['$', '('], []⟩
  else if command.contains btick then
    some ⟨.backtick_substitution, [btick], []⟩
  else if containsSub command ['<', '('] then
    some ⟨.process_substitution, ['<', '('], []⟩
  else if containsSub command ['>', '('] then
    some ⟨.process_substitution, ['>', '('], []⟩
  else if containsSub command ['\\', 'x'] then
    some ⟨.hex_escape, ['\\', 'x'], []⟩
  else if containsSub command ['\\', '0'] then
    some ⟨.hex_escape, ['\\', '0'], []⟩
  else
    match (extractAllCommandNames command).find? (fun n => dangerousBuiltins.contains n) with
    | some n => some ⟨.dangerous_builtin, [], n⟩
    | none => none

/-- Variants of a path violation (spec section 4.4). -/
inductive PathViolationType where
  | outside_vault
  | export_path_read
deriving DecidableEq

/-- A denied path usage: its variant and the offending path. -/
structure PathViolation where
  type : PathViolationType
  path : List Char
deriving DecidableEq

/-- Redirect/flag tokens whose following token is a write target (spec
section 4.4). -/
def isWriteTargetOp (t : List Char) : Bool :=
  t = ['>'] || t = ['>', '>'] || t = ['-', 'o'] || t = "--output".toList

/-- The read redirect operator. -/
def isReadTargetOp (t : List Char) : Bool := t = ['<']

/-- Path-likeness test of spec section 4.4: contains a slash, or starts
with `.` or `~`. -/
def isPathLike (t : List Char) : Bool :=
  t.contains '/' ||
    match t with
    | c :: _ => c = '.' || c = '~'
    | [] => false

/-- Cleaning of a path candidate (spec section 4.4): strip surrounding
quotes, then drop trailing slashes. -/
def cleanPathToken (t : List Char) : List Char :=
  let unq := t.dropWhile isQuoteChar
  let unq := (unq.reverse.dropWhile isQuoteChar).reverse
  (unq.reverse.dropWhile (fun c => c = '/')).reverse

/-- Check one path candidate against the boundary classifier: `outside` is
always a violation, `export` is a violation for reads only. -/
def checkPathCandidate (classify : List Char → PathAccessType) (isWrite : Bool)
    (p : List Char) : Option PathViolation :=
  match classify p with
  | .outside => some ⟨.outside_vault, p⟩
  | .exportDir => if isWrite then none else some ⟨.export_path_read, p⟩
  | _ => none

/-- Scan the tokens of one segment left to right for the first path
violation: tokens after a write redirect/flag are write targets, tokens
after `<` are read targets, bare path-like tokens are reads. -/
def scanSegmentTokens (classify : List Char → PathAccessType) :
    List (List Char) → Option PathViolation
  | [] => none
  | t :: rest =>
      if isWriteTargetOp t then
        match rest with
        | [] => none
        | p :: rest' =>
            match checkPathCandidate classify true (cleanPathToken p) with
            | some v => some v
            | none => scanSegmentTokens classify rest'
      else if isReadTargetOp t then
        match rest with
        | [] => none
        | p :: rest' =>
            match checkPathCandidate classify false (cleanPathToken p) with
            | some v => some v
            | none => scanSegmentTokens classify rest'
      else if isPathLike t then
        match checkPathCandidate classify false (cleanPathToken t) with
        | some v => some v
        | none => scanSegmentTokens classify rest
      else scanSegmentTokens classify rest

/-- First violation over a list of segments. -/
def firstViolation (classify : List Char → PathAccessType) :
    List (List Char) → Option PathViolation
  | [] => none
  | seg :: rest =>
      match scanSegmentTokens classify (splitWs (trimWs seg)) with
      | some v => some v
      | none => firstViolation classify rest

/-- Modelled from the spec: `findBashCommandPathViolation` of
`BashPathValidator`, which is not under src/ (only its caller is).  Spec
section 4.4: extract path candidates from redirect targets and bare
path-like tokens of each segment, clean each candidate, classify it, and
return the first violating candidate in left-to-right order. -/
def findBashCommandPathViolation (command : List Char)
    (classify : List Char → PathAccessType) : Option PathViolation :=
  firstViolation classify (splitSegments command)

/-- Deny reason built by the `switch` on the dangerous-construct type
(hooks file, lines 82-98). -/
def dangerousReason (d : DConstruct) : List Char :=
  match d.type with
  | .command_substitution =>
      ("Access denied: Command substitution ").toList ++ [dquote] ++ d.pattern ++ [dquote] ++
        (" is not allowed as it could execute arbitrary code.").toList
  | .backtick_substitution =>
      ("Access denied: Backtick substitution ").toList ++ [dquote] ++ d.pattern ++ [dquote] ++
        (" is not allowed as it could execute arbitrary code.").toList
  | .dangerous_builtin =>
      ("Access denied: The ").toList ++ [dquote] ++ d.command ++ [dquote] ++
        (" command is not allowed as it could execute arbitrary code.").toList
  | .hex_escape =>
      ("Access denied: Hex/octal escape sequences ").toList ++ [dquote] ++ d.pattern ++ [dquote] ++
        (" are not allowed as they could obfuscate malicious paths.").toList
  | .process_substitution =>
      ("Access denied: Process substitution ").toList ++ [dquote] ++ d.pattern ++ [dquote] ++
        (" is not allowed as it could execute arbitrary code.").toList

/-- Deny reason for a path violation found in a Bash command (hooks file,
lines 115-118). -/
def violationReason (v : PathViolation) : List Char :=
  match v.type with
  | .export_path_read =>
      ("Access denied: Command path ").toList ++ [dquote] ++ v.path ++ [dquote] ++
        (" is in an allowed export directory, but export paths are write-only.").toList
  | .outside_vault =>
      ("Access denied: Command path ").toList ++ [dquote] ++ v.path ++ [dquote] ++
        (" is outside the vault. Agent is restricted to vault directory only.").toList

/-- Embedding of the Bash branch of `createVaultRestrictionHook` (hooks
file, lines 75-128): first look for a dangerous construct and deny with a
reason naming it; only when none is found consult the path classifier via
`findBashCommandPathViolation`; continue when neither check fires. -/
def vaultHookBash (command : List Char)
    (classify : List Char → PathAccessType) : Verdict :=
  match findDangerousConstruct command with
  | some d => .deny (dangerousReason d)
  | none =>
      match findBashCommandPathViolation command classify with
      | some v => .deny (violationReason v)
      | none => .cont

/-- Modelled from the spec: the file read/write/edit tools distinguished
by `isFileTool` / `isEditTool` of `toolNames.ts`, which is not under src/
(only its importer is).  Spec section 4.4: edit/write tools are permitted
into `export`, read-only tools are not. -/
inductive FileTool where
  | readOnly
  | editWrite
deriving DecidableEq

/-- Modelled from the spec: `isEditTool` of `toolNames.ts` (not under
src/) restricted to the file tools. -/
def isEditToolB : FileTool → Bool
  | .editWrite => true
  | .readOnly => false

/-- Deny reason for a read-only tool aimed at an export path (hooks file,
line 159). -/
def exportPathReason (p : List Char) : List Char :=
  ("Access denied: Path ").toList ++ [dquote] ++ p ++ [dquote] ++
    (" is in an allowed export directory, but export paths are write-only.").toList

/-- Deny reason for a path outside the vault (hooks file, line 169). -/
def outsidePathReason (p : List Char) : List Char :=
  ("Access denied: Path ").toList ++ [dquote] ++ p ++ [dquote] ++
    (" is outside the vault. Agent is restricted to vault directory only.").toList

/-- Embedding of the file-tool branch of `createVaultRestrictionHook`
(hooks file, lines 131-174): no path argument means nothing to check;
`vault`, `readwrite` and `context` paths are always allowed; `export`
paths are allowed exactly for edit/write tools; everything else is denied
as outside the vault.  The `getPathFromToolInput` collaborator (not under
src/) is abstracted as the `filePath` argument. -/
def vaultHookFile (tool : FileTool) (filePath : Option (List Char))
    (classify : List Char → PathAccessType) : Verdict :=
  match filePath with
  | none => .cont
  | some p =>
      let accessType := classify p
      if accessType = .vault || accessType = .readwrite || accessType = .context then
        .cont
      else if isEditToolB tool && accessType = .exportDir then .cont
      else if !isEditToolB tool && accessType = .exportDir then
        .deny (exportPathReason p)
      else .deny (outsidePathReason p)

/-- Worker for `collapseWs`: replace each maximal whitespace run by one
space; `inSep` records being inside a run. -/
def collapseWsGo : List Char → Bool → List Char
  | [], _ => []
  | c :: rest, inSep =>
      if isWs c then
        if inSep then collapseWsGo rest true
        else ' ' :: collapseWsGo rest true
      else c :: collapseWsGo rest false

/-- Replace every maximal whitespace run of a string by a single space:
two commands differ only in internal whitespace runs exactly when they
have the same `collapseWs` image. -/
def collapseWs (s : List Char) : List Char := collapseWsGo s false

/-- No two adjacent whitespace characters. -/
def noDoubleWs : List Char → Bool
  | a :: b :: rest => !(isWs a && isWs b) && noDoubleWs (b :: rest)
  | _ => true

/-- Every whitespace character of the string is a plain space. -/
def wsIsSpace (s : List Char) : Bool := s.all (fun c => !isWs c || c = ' ')

/-- No adjacent identical empty-quote pair anywhere in the string. -/
def noQuotePairs : List Char → Bool
  | a :: b :: rest => !(a = b && isQuoteChar a) && noQuotePairs (b :: rest)
  | _ => true

/-- Middle fields (those with both a predecessor and a successor) of a
field list are nonempty; the shape `splitWs` guarantees for every input. -/
def tailGood : List (List Char) → Bool
  | [] => true
  | [_] => true
  | f :: rest => !f.isEmpty && tailGood rest

/-! ### Helper lemmas -/

theorem isCommandBlocked_disabled (patterns : List (List Char)) (command : List Char) :
    isCommandBlocked command patterns false = some false := by
  simp [isCommandBlocked]

theorem isCommandBlocked_empty (patterns : List (List Char)) (en : Bool) :
    isCommandBlocked [] patterns en = some false := by
  simp [isCommandBlocked]

/-! ### Claim theorems -/

/-- Claim C4: segmentation splits on the separators with `||`/`&&` taking
precedence over the single-character ones, skips empty segments, and
applies basename extraction to the command token; in particular
`extractAllCommandNames "sudo rm -rf / && ls" = ["rm", "ls"]`. -/
theorem extractAllCommandNames_segmentation :
    extractAllCommandNames ("sudo rm -rf / && ls".toList) = ["rm".toList, "ls".toList] ∧
    splitSegments ("x||y".toList) = ["x".toList, "y".toList] ∧
    splitSegments ("x&&y".toList) = ["x".toList, "y".toList] ∧
    splitSegments ("x|y;z".toList) = ["x".toList, "y".toList, "z".toList] ∧
    extractAllCommandNames ("ls ;; cat".toList) = ["ls".toList, "cat".toList] ∧
    extractAllCommandNames ("/usr/bin/rm x | grep y".toList) = ["rm".toList, "grep".toList] := by
  decide

/-- Claim C5: with the simple pattern `rm` enabled, the blocklist does not
match `rm` inside the unrelated words of `format-disk` or `format C:`, but
blocks `rm -rf /tmp` (standalone word) and `/bin/rm file.txt` (basename of
a path-prefixed command). -/
theorem isCommandBlocked_word_boundary :
    isCommandBlocked ("format-disk".toList) ["rm".toList] true = some false ∧
    isCommandBlocked ("format C:".toList) ["rm".toList] true = some false ∧
    isCommandBlocked ("rm -rf /tmp".toList) ["rm".toList] true = some true ∧
    isCommandBlocked ("/bin/rm file.txt".toList) ["rm".toList] true = some true := by
  refine ⟨by decide, by decide, by decide, by decide⟩

/-- Claim C6: `isCommandBlocked` returns false whenever blocklist checking
is disabled or the command is empty, for every pattern list; and the
blocklist hook yields a continue verdict for a missing or non-string
command. -/
theorem isCommandBlocked_failOpen :
    (∀ patterns command, isCommandBlocked command patterns false = some false) ∧
    (∀ patterns en, isCommandBlocked [] patterns en = some false) ∧
    (∀ patterns en, runBlocklistHook .missing patterns en = some .cont ∧
        runBlocklistHook .nonString patterns en = some .cont) := by
  refine ⟨isCommandBlocked_disabled, isCommandBlocked_empty, fun patterns en => ⟨?_, ?_⟩⟩ <;>
    simp [runBlocklistHook, extractBashCommand, isCommandBlocked_empty]

/-- Claim C7: a blocklist pattern that fails to compile as a regex falls
back to case-insensitive substring matching on the normalized command, and
`validateBlocklistPattern` never rejects an invalid regex: only empty
patterns are invalid, and an uncompilable pattern is reported valid with
the substring-match warning.  The pattern `[` (an unterminated character
class) exercises the fallback concretely. -/
theorem invalid_regex_fallback :
    (∀ normalizedCommand commandNames pattern,
        trimWs (toLowerStr pattern) ≠ [] →
        (commandNames.any (fun n => toLowerStr n = trimWs (toLowerStr pattern))) = false →
        isSimplePattern (trimWs (toLowerStr pattern)) = false →
        parseRegexGo pattern [] = .invalid →
        patternBlocks normalizedCommand commandNames pattern =
          some (containsSub (toLowerStr normalizedCommand) (trimWs (toLowerStr pattern)))) ∧
    (∀ pattern, trimWs pattern ≠ [] → parseRegexGo pattern [] = .invalid →
        validateBlocklistPattern pattern = some ⟨true, some .invalidRegexWarning⟩) ∧
    (∀ pattern r, validateBlocklistPattern pattern = some r → r.isValid = false →
        trimWs pattern = []) ∧
    isCommandBlocked ("echo a[b".toList) ["[".toList] true = some true ∧
    isCommandBlocked ("echo ab".toList) ["[".toList] true = some false := by
  refine ⟨?_, ?_, ?_, by decide, by decide⟩
  · intro normalizedCommand commandNames pattern h1 h2 h3 h4
    simp only [patternBlocks, h1, h2, h3, if_false, if_neg h1]
    simp [h4]
  · intro pattern h1 h2
    simp [validateBlocklistPattern, h1, h2]
  · intro pattern r hr hv
    by_cases h : trimWs pattern = []
    · exact h
    · exfalso
      simp only [validateBlocklistPattern, if_neg h] at hr
      rcases hp : parseRegexGo pattern [] with toks | _ | _ <;> rw [hp] at hr
      · cases hr; simp at hv
      · cases hr; simp at hv
      · cases hr

/-- Claim C8: for a Bash invocation in which a dangerous construct is
found, the vault-restriction hook denies with a reason naming the
construct, and the verdict does not depend on the path classifier at all
(the construct check runs strictly before path classification, which is
never consulted). -/
theorem vaultHookBash_construct_first (command : List Char) (d : DConstruct)
    (h : findDangerousConstruct command = some d) :
    (∀ classify, vaultHookBash command classify = .deny (dangerousReason d)) ∧
    (∀ classifyA classifyB,
        vaultHookBash command classifyA = vaultHookBash command classifyB) := by
  constructor
  · intro classify
    unfold vaultHookBash
    rw [h]
  · intro classifyA classifyB
    unfold vaultHookBash
    rw [h]

/-- Witness for C8 at the command `echo $(ls)` with a classifier that
calls everything outside the vault. -/
theorem vaultHookBash_construct_first_witness :
    vaultHookBash ("echo $(ls)".toList) (fun _ => .outside) =
      .deny (dangerousReason ⟨.command_substitution, ['$', '('], []⟩) :=
  (vaultHookBash_construct_first ("echo $(ls)".toList)
    ⟨.command_substitution, ['$', '('], []⟩ (by decide)).1 _

/-- Claim C9: for a file-tool invocation with a path argument, paths
classified `vault`, `readwrite` or `context` always continue; `export`
paths continue exactly for edit/write tools and otherwise deny with the
write-only reason; paths classified outside deny with the outside-the-vault
reason. -/
theorem vaultHookFile_policy (tool : FileTool) (p : List Char)
    (classify : List Char → PathAccessType) :
    (classify p = .vault ∨ classify p = .readwrite ∨ classify p = .context →
        vaultHookFile tool (some p) classify = .cont) ∧
    (classify p = .exportDir →
        vaultHookFile tool (some p) classify =
          (if tool = .editWrite then .cont else .deny (exportPathReason p))) ∧
    (classify p = .outside →
        vaultHookFile tool (some p) classify = .deny (outsidePathReason p)) := by
  refine ⟨fun h => ?_, fun h => ?_, fun h => ?_⟩
  · rcases h with h | h | h <;> simp [vaultHookFile, h]
  · cases tool <;> simp [vaultHookFile, h, isEditToolB]
  · cases tool <;> simp [vaultHookFile, h, isEditToolB]

/-- Witness for C9: a read-only tool aimed at a path classified `export`
is denied with the write-only reason. -/
theorem vaultHookFile_policy_witness :
    vaultHookFile .readOnly (some ("/tmp/export/out.csv".toList)) (fun _ => .exportDir) =
      (if (FileTool.readOnly = FileTool.editWrite) then Verdict.cont
       else Verdict.deny (exportPathReason ("/tmp/export/out.csv".toList))) :=
  (vaultHookFile_policy .readOnly ("/tmp/export/out.csv".toList) (fun _ => .exportDir)).2.1 rfl

/-- Counterexample to claim C1: for the command `" r\m"`, which begins
with whitespace, the backslash of the first whitespace-delimited token
`r\m` is NOT removed (the JavaScript split produces a leading empty field,
and only that empty field has its backslashes removed), so normalization
returns the command unchanged with its backslash still present. -/
theorem normalizeCommand_keeps_first_token_backslash :
    normalizeCommand (" r\\m".toList) = (" r\\m".toList) ∧
    '\\' ∈ (" r\\m".toList) := by
  decide

/-- Counterexample to claim C2: normalization is not idempotent.  For the
three-character command made of a single quote, a backslash and a single
quote, the first pass deletes the backslash of the first token, creating
the adjacent empty-quote pair whose removal by the second pass changes the
string again. -/
theorem normalizeCommand_not_idempotent :
    normalizeCommand (normalizeCommand [squote, '\\', squote]) ≠
      normalizeCommand [squote, '\\', squote] := by
  decide

/-- Counterexample to claim C3: a segment consisting only of wrapper
tokens yields the first wrapper itself as the extracted command name, so
the extracted name can be a member of the wrapper set. -/
theorem extractAllCommandNames_wrapper_only :
    extractAllCommandNames ("sudo".toList) = ["sudo".toList] ∧
    wrappers.contains ("sudo".toList) = true := by
  decide

/-! ### Structure lemmas for the whitespace splitter -/

theorem splitWsGo_ne_nil (s : List Char) : ∀ (acc : List Char) (b : Bool), splitWsGo s acc b ≠ [] := by
  induction s with
  | nil => intro acc b; simp [splitWsGo]
  | cons c rest ih =>
      intro acc b
      cases hc : isWs c
      · simpa [splitWsGo, hc] using ih (c :: acc) false
      · cases b
        · simp [splitWsGo, hc]
        · simpa [splitWsGo, hc] using ih acc true

theorem splitWsGo_true_eq (s : List Char) : splitWsGo s [] true = splitWs (s.dropWhile isWs) := by
  induction s with
  | nil => rfl
  | cons c rest ih =>
      cases hc : isWs c
      · simp [splitWsGo, splitWs, hc, List.dropWhile_cons]
      · simpa [splitWsGo, hc, List.dropWhile_cons] using ih

theorem splitWsGo_append_nonws (a : List Char) (ha : wsFree a = true) :
    ∀ (t acc : List Char), splitWsGo (a ++ t) acc false = splitWsGo t (a.reverse ++ acc) false := by
  induction a with
  | nil => intro t acc; simp
  | cons c a' ih =>
      intro t acc
      have hc : isWs c = false := by
        have := (List.all_eq_true.mp ha) c (by simp)
        simpa using this
      have ha' : wsFree a' = true := by
        unfold wsFree at ha ⊢
        rw [List.all_eq_true] at ha ⊢
        exact fun x hx => ha x (by simp [hx])
      rw [List.cons_append]
      rw [show splitWsGo (c :: (a' ++ t)) acc false = splitWsGo (a' ++ t) (c :: acc) false from by
        simp [splitWsGo, hc]]
      rw [ih ha' t (c :: acc)]
      simp

theorem splitWs_wsFree (s : List Char) (hs : wsFree s = true) : splitWs s = [s] := by
  have h := splitWsGo_append_nonws s hs [] []
  simpa [splitWs, splitWsGo] using h

theorem splitWs_append_ws (a : List Char) (ha : wsFree a = true) (w : Char)
    (hw : isWs w = true) (y : List Char) :
    splitWs (a ++ w :: y) = a :: splitWs (y.dropWhile isWs) := by
  show splitWsGo (a ++ w :: y) [] false = _
  rw [splitWsGo_append_nonws a ha]
  simp [splitWsGo, hw, splitWsGo_true_eq]

theorem splitWs_cons_ws (c : Char) (hc : isWs c = true) (y : List Char) :
    splitWs (c :: y) = [] :: splitWs (y.dropWhile isWs) := by
  show splitWsGo (c :: y) [] false = _
  simp [splitWsGo, hc, splitWsGo_true_eq]

theorem splitWsGo_head_ne (s : List Char) : ∀ (acc : List Char), acc ≠ [] →
    ∀ l, splitWsGo s acc false ≠ [] :: l := by
  induction s with
  | nil =>
      intro acc hacc l h
      simp [splitWsGo] at h
      exact hacc (by simpa using h.1)
  | cons c rest ih =>
      intro acc hacc l h
      cases hc : isWs c
      · rw [show splitWsGo (c :: rest) acc false = splitWsGo rest (c :: acc) false from by
          simp [splitWsGo, hc]] at h
        exact ih (c :: acc) (by simp) l h
      · rw [show splitWsGo (c :: rest) acc false = acc.reverse :: splitWsGo rest [] true from by
          simp [splitWsGo, hc]] at h
        have : acc.reverse = [] := (List.cons_eq_cons.mp h).1
        exact hacc (by simpa using this)

theorem splitWs_eq_single_nil (y : List Char) (h : splitWs y = [[]]) : y = [] := by
  cases y with
  | nil => rfl
  | cons c y' =>
      exfalso
      cases hc : isWs c
      · have hgo : splitWsGo y' [c] false = [[]] := by
          rw [show splitWsGo y' [c] false = splitWsGo (c :: y') [] false from by
            simp [splitWsGo, hc]]
          exact h
        exact splitWsGo_head_ne y' [c] (by simp) [] hgo
      · rw [splitWs_cons_ws c hc y'] at h
        exact splitWsGo_ne_nil _ _ _ ((List.cons_eq_cons.mp h).2)

theorem splitWsGo_wsFree (s : List Char) : ∀ (acc : List Char) (b : Bool), wsFree acc = true →
    ∀ f ∈ splitWsGo s acc b, wsFree f = true := by
  induction s with
  | nil =>
      intro acc b hacc f hf
      simp [splitWsGo] at hf
      subst hf
      simpa [wsFree] using hacc
  | cons c rest ih =>
      intro acc b hacc f hf
      cases hc : isWs c
      · have hacc' : wsFree (c :: acc) = true := by
          unfold wsFree at hacc ⊢
          rw [List.all_eq_true] at hacc ⊢
          intro x hx
          rcases List.mem_cons.mp hx with h | h
          · subst h; simp [hc]
          · exact hacc x h
        rw [show splitWsGo (c :: rest) acc b = splitWsGo rest (c :: acc) false from by
          simp [splitWsGo, hc]] at hf
        exact ih (c :: acc) false hacc' f hf
      · cases b
        · rw [show splitWsGo (c :: rest) acc false = acc.reverse :: splitWsGo rest [] true from by
            simp [splitWsGo, hc]] at hf
          rcases List.mem_cons.mp hf with h | h
          · subst h; simpa [wsFree] using hacc
          · exact ih [] true rfl f h
        · rw [show splitWsGo (c :: rest) acc true = splitWsGo rest acc true from by
            simp [splitWsGo, hc]] at hf
          exact ih acc true hacc f hf

theorem tailGood_cons_of_ne (x : List Char) (r : List (List Char)) (hx : x ≠ [])
    (hr : tailGood r = true) : tailGood (x :: r) = true := by
  cases r with
  | nil => rfl
  | cons y r' => simpa [tailGood, List.isEmpty_iff, hx] using hr

theorem tailGood_tail (x : List Char) (r : List (List Char))
    (h : tailGood (x :: r) = true) : tailGood r = true := by
  cases r with
  | nil => rfl
  | cons y r' =>
      simp only [tailGood, Bool.and_eq_true] at h
      exact h.2

theorem tailGood_head_ne (x : List Char) (y : List Char) (r : List (List Char))
    (h : tailGood (x :: y :: r) = true) : x ≠ [] := by
  simp only [tailGood, Bool.and_eq_true] at h
  simpa [List.isEmpty_iff] using h.1

theorem splitWsGo_shape (s : List Char) : ∀ acc : List Char,
    tailGood (splitWsGo s acc false).tail = true ∧
    tailGood (splitWsGo s [] true) = true ∧
    (acc ≠ [] → tailGood (splitWsGo s acc false) = true) := by
  induction s with
  | nil =>
      intro acc
      exact ⟨by simp [splitWsGo, tailGood], by simp [splitWsGo, tailGood],
        fun _ => by simp [splitWsGo, tailGood]⟩
  | cons c rest ih =>
      intro acc
      refine ⟨?_, ?_, ?_⟩
      · cases hc : isWs c
        · simpa [splitWsGo, hc] using (ih (c :: acc)).1
        · simpa [splitWsGo, hc] using (ih []).2.1
      · cases hc : isWs c
        · simpa [splitWsGo, hc] using (ih [c]).2.2 (by simp)
        · simpa [splitWsGo, hc] using (ih []).2.1
      · intro hacc
        cases hc : isWs c
        · simpa [splitWsGo, hc] using (ih (c :: acc)).2.2 (by simp)
        · rw [show splitWsGo (c :: rest) acc false = acc.reverse :: splitWsGo rest [] true from by
            simp [splitWsGo, hc]]
          exact tailGood_cons_of_ne _ _ (by simpa using hacc) (ih []).2.1

theorem splitWs_tailGood (s : List Char) (f : List Char) (rest : List (List Char))
    (h : splitWs s = f :: rest) : tailGood rest = true := by
  have h1 := (splitWsGo_shape s []).1
  rw [show splitWsGo s [] false = splitWs s from rfl, h] at h1
  simpa using h1

theorem wsFree_dropWhile_self (g : List Char) (hg : wsFree g = true) :
    g.dropWhile isWs = g := by
  cases g with
  | nil => rfl
  | cons c g' =>
      have hc : isWs c = false := by
        have := (List.all_eq_true.mp hg) c (by simp)
        simpa using this
      simp [List.dropWhile_cons, hc]

theorem splitWs_join (rest : List (List Char)) : ∀ f : List Char,
    wsFree f = true → (∀ g ∈ rest, wsFree g = true) → tailGood rest = true →
    splitWs (joinWithSpace (f :: rest)) = f :: rest := by
  induction rest with
  | nil =>
      intro f hf _ _
      simpa [joinWithSpace] using splitWs_wsFree f hf
  | cons g rest' ih =>
      intro f hf hg htg
      have hgw : wsFree g = true := hg g (by simp)
      rw [show joinWithSpace (f :: g :: rest') = f ++ ' ' :: joinWithSpace (g :: rest') from rfl]
      rw [splitWs_append_ws f hf ' ' (by decide)]
      congr 1
      cases rest' with
      | nil =>
          rw [show joinWithSpace [g] = g from rfl, wsFree_dropWhile_self g hgw]
          exact splitWs_wsFree g hgw
      | cons r1 rest'' =>
          have hgne : g ≠ [] := tailGood_head_ne g r1 rest'' htg
          have hdrop : (joinWithSpace (g :: r1 :: rest'')).dropWhile isWs =
              joinWithSpace (g :: r1 :: rest'') := by
            rw [show joinWithSpace (g :: r1 :: rest'') = g ++ ' ' :: joinWithSpace (r1 :: rest'')
              from rfl]
            cases hgc : g with
            | nil => exact absurd hgc hgne
            | cons gc g' =>
                have hc : isWs gc = false := by
                  have := (List.all_eq_true.mp hgw) gc (by simp [hgc])
                  simpa using this
                simp [List.dropWhile_cons, hc]
          rw [hdrop]
          exact ih g hgw (fun x hx => hg x (by simp [hx])) (tailGood_tail g (r1 :: rest'') htg)

theorem wsFree_stripBackslashes (p : List Char) (hp : wsFree p = true) :
    wsFree (stripBackslashes p) = true := by
  unfold wsFree stripBackslashes at *
  rw [List.all_eq_true] at *
  intro c hc
  exact hp c (List.mem_of_mem_filter hc)

theorem normalizeCommand_eq_match (C : List Char) :
    normalizeCommand C =
      match splitWs (removeEmptyQuotes C) with
      | [] => removeEmptyQuotes C
      | p :: ps => joinWithSpace (stripBackslashes p :: ps) := rfl

theorem normalizeCommand_splitWs (C : List Char) :
    splitWs (normalizeCommand C) = applyFirst stripBackslashes (splitWs (removeEmptyQuotes C)) := by
  cases h : splitWs (removeEmptyQuotes C) with
  | nil => exact absurd h (splitWsGo_ne_nil _ _ _)
  | cons p ps =>
      have hn : normalizeCommand C = joinWithSpace (stripBackslashes p :: ps) := by
        rw [normalizeCommand_eq_match, h]
      have hwsf : ∀ f ∈ p :: ps, wsFree f = true := by
        intro f hf
        rw [← h] at hf
        exact splitWsGo_wsFree _ [] false rfl f hf
      rw [hn]
      rw [splitWs_join ps (stripBackslashes p)
        (wsFree_stripBackslashes p (hwsf p (by simp)))
        (fun g hg => hwsf g (by simp [hg]))
        (splitWs_tailGood _ p ps h)]
      rfl

theorem removeEmptyQuotes_noPairs (C : List Char) (h : noQuotePairs C = true) :
    removeEmptyQuotes C = C := by
  induction C with
  | nil => rfl
  | cons a tail ih =>
      cases tail with
      | nil => rfl
      | cons b rest =>
          simp only [noQuotePairs, Bool.and_eq_true] at h
          cases hq : (a = b && isQuoteChar a) with
          | true => rw [hq] at h; simp at h
          | false =>
              rw [show removeEmptyQuotes (a :: b :: rest) = a :: removeEmptyQuotes (b :: rest) from by
                simp [removeEmptyQuotes, hq]]
              rw [ih h.2]

theorem stripBackslashes_idem (t : List Char) :
    stripBackslashes (stripBackslashes t) = stripBackslashes t := by
  simp [stripBackslashes, List.filter_filter]

/-- Claim C1 (amended): normalization removes adjacent empty-quote pairs in
a single left-to-right pass over the raw command (concretely turning
`r''m`, `r""m` and the backtick analogue into `rm`, and leaving any
command without such a pair unchanged), then splits the result on
whitespace runs and removes backslashes from the first whitespace field
only, leaving every later field untouched — when the quote-stripped
command begins with whitespace that first field is the empty string, so
backslashes in the first visible word survive — and always returns a
string. -/
theorem normalizeCommand_structure :
    (∀ C, splitWs (normalizeCommand C) =
        applyFirst stripBackslashes (splitWs (removeEmptyQuotes C))) ∧
    (∀ C, noQuotePairs C = true → removeEmptyQuotes C = C) ∧
    removeEmptyQuotes ('r' :: squote :: squote :: ['m']) = ['r', 'm'] ∧
    removeEmptyQuotes ('r' :: dquote :: dquote :: ['m']) = ['r', 'm'] ∧
    removeEmptyQuotes ('r' :: btick :: btick :: ['m']) = ['r', 'm'] :=
  ⟨normalizeCommand_splitWs, removeEmptyQuotes_noPairs, by decide, by decide, by decide⟩

/-- Witness for the amended C1 at concrete commands. -/
theorem normalizeCommand_structure_witness :
    splitWs (normalizeCommand ("r\\m x\\y".toList)) =
      applyFirst stripBackslashes (splitWs (removeEmptyQuotes ("r\\m x\\y".toList))) ∧
    removeEmptyQuotes ("rm -rf".toList) = ("rm -rf".toList) :=
  ⟨normalizeCommand_structure.1 _, normalizeCommand_structure.2.1 _ (by decide)⟩

/-- Claim C2 (amended): normalization is idempotent on every command whose
normalization contains no adjacent empty-quote pair (the single removal
pass can create a new adjacent pair out of the characters around a deleted
pair or a deleted backslash, and only then does a second pass differ). -/
theorem normalizeCommand_idempotent (C : List Char)
    (h : noQuotePairs (normalizeCommand C) = true) :
    normalizeCommand (normalizeCommand C) = normalizeCommand C := by
  cases hsp : splitWs (removeEmptyQuotes C) with
  | nil => exact absurd hsp (splitWsGo_ne_nil _ _ _)
  | cons p ps =>
      have hy : normalizeCommand C = joinWithSpace (stripBackslashes p :: ps) := by
        rw [normalizeCommand_eq_match, hsp]
      have hwsf : ∀ f ∈ p :: ps, wsFree f = true := by
        intro f hf
        rw [← hsp] at hf
        exact splitWsGo_wsFree _ [] false rfl f hf
      have hJ : splitWs (joinWithSpace (stripBackslashes p :: ps)) = stripBackslashes p :: ps :=
        splitWs_join ps _ (wsFree_stripBackslashes p (hwsf p (by simp)))
          (fun g hg => hwsf g (by simp [hg])) (splitWs_tailGood _ p ps hsp)
      rw [hy] at h ⊢
      rw [normalizeCommand_eq_match, removeEmptyQuotes_noPairs _ h, hJ]
      show joinWithSpace (stripBackslashes (stripBackslashes p) :: ps) = _
      rw [stripBackslashes_idem]

/-- Witness for the amended C2 at a concrete command. -/
theorem normalizeCommand_idempotent_witness :
    normalizeCommand (normalizeCommand ("sudo rm  -rf /".toList)) =
      normalizeCommand ("sudo rm  -rf /".toList) :=
  normalizeCommand_idempotent ("sudo rm  -rf /".toList) (by decide)

theorem dropWhile_head_false {α : Type} (p : α → Bool) :
    ∀ (l : List α) (c : α) (cs : List α), l.dropWhile p = c :: cs → p c = false := by
  intro l
  induction l with
  | nil => intro c cs h; simp at h
  | cons x l' ih =>
      intro c cs h
      rw [List.dropWhile_cons] at h
      by_cases hx : p x = true
      · rw [if_pos hx] at h
        exact ih c cs h
      · rw [if_neg hx] at h
        rw [← (List.cons_eq_cons.mp h).1]
        simpa using hx

theorem getLast?_mem_of_eq (l : List Char) (a : Char) (h : l.getLast? = some a) : a ∈ l := by
  rcases List.mem_getLast?_eq_getLast (by simp [h] : a ∈ l.getLast?) with ⟨hne, heq⟩
  exact heq ▸ List.getLast_mem hne

theorem splitWs_fields_nonempty (s : List Char) (hne : s ≠ [])
    (hhead : ∀ c, s.head? = some c → isWs c = false)
    (hlast : ∀ c, s.getLast? = some c → isWs c = false) :
    ∀ f ∈ splitWs s, f ≠ [] := by
  suffices H : ∀ n (s : List Char), s.length ≤ n → s ≠ [] →
      (∀ c, s.head? = some c → isWs c = false) →
      (∀ c, s.getLast? = some c → isWs c = false) →
      ∀ f ∈ splitWs s, f ≠ [] from H s.length s le_rfl hne hhead hlast
  intro n
  induction n with
  | zero =>
      intro s hlen hne _ _ _ _
      cases s with
      | nil => exact absurd rfl hne
      | cons c s' => simp at hlen
  | succ n ihn =>
      intro s hlen hne hhead hlast f hf
      have hsplit_eq : s.takeWhile (fun c => !isWs c) ++ s.dropWhile (fun c => !isWs c) = s :=
        List.takeWhile_append_dropWhile (fun c => !isWs c) s
      have ha : wsFree (s.takeWhile (fun c => !isWs c)) = true := by
        unfold wsFree
        rw [List.all_eq_true]
        intro c hc
        simpa using List.mem_takeWhile_imp hc
      have hane : s.takeWhile (fun c => !isWs c) ≠ [] := by
        cases hs : s with
        | nil => exact absurd hs hne
        | cons c s' =>
            have hc : isWs c = false := hhead c (by rw [hs]; rfl)
            rw [List.takeWhile_cons, if_pos (by simp [hc])]
            simp
      cases hr : s.dropWhile (fun c => !isWs c) with
      | nil =>
          rw [hr, List.append_nil] at hsplit_eq
          rw [← hsplit_eq] at hf
          rw [splitWs_wsFree _ ha] at hf
          simp at hf
          subst hf
          rw [hsplit_eq]
          exact hne
      | cons w b =>
          have hw : isWs w = true := by
            have := dropWhile_head_false _ s w b hr
            simpa using this
          have hbne : b ≠ [] := by
            intro hb
            subst hb
            have : s.getLast? = some w := by
              rw [← hsplit_eq, hr]
              rw [List.getLast?_append_of_ne_nil _ (by simp)]
              rfl
            rw [hlast w this] at hw
            cases hw
          have hlast_b : ∀ c, b.getLast? = some c → isWs c = false := by
            intro c hc
            apply hlast
            rw [← hsplit_eq, hr]
            rw [show s.takeWhile (fun c => !isWs c) ++ w :: b =
              (s.takeWhile (fun c => !isWs c) ++ [w]) ++ b from by simp]
            rw [List.getLast?_append_of_ne_nil _ hbne]
            exact hc
          have hsp : splitWs s = s.takeWhile (fun c => !isWs c) :: splitWs (b.dropWhile isWs) := by
            conv_lhs => rw [← hsplit_eq, hr]
            exact splitWs_append_ws _ ha w hw b
          rw [hsp] at hf
          rcases List.mem_cons.mp hf with hfa | hfb
          · subst hfa; exact hane
          · have hsne : b.dropWhile isWs ≠ [] := by
              intro hnil
              rw [List.dropWhile_eq_nil_iff] at hnil
              cases hgb : b.getLast? with
              | none => exact hbne (List.getLast?_eq_none_iff.mp hgb)
              | some d =>
                  have hd := hlast_b d hgb
                  rw [hnil d (getLast?_mem_of_eq b d hgb)] at hd
                  cases hd
            have hshead : ∀ c, (b.dropWhile isWs).head? = some c → isWs c = false := by
              intro c hc
              cases hbd : b.dropWhile isWs with
              | nil => rw [hbd] at hc; cases hc
              | cons x xs =>
                  rw [hbd] at hc
                  simp only [List.head?_cons, Option.some.injEq] at hc
                  rw [← hc]
                  exact dropWhile_head_false _ b x xs hbd
            have hslast : ∀ c, (b.dropWhile isWs).getLast? = some c → isWs c = false := by
              intro c hc
              apply hlast_b
              have hb_eq : b.takeWhile isWs ++ b.dropWhile isWs = b :=
                List.takeWhile_append_dropWhile isWs b
              rw [← hb_eq, List.getLast?_append_of_ne_nil _ hsne]
              exact hc
            have hlen' : (b.dropWhile isWs).length ≤ n := by
              have h1 : (b.dropWhile isWs).length ≤ b.length :=
                (List.dropWhile_sublist isWs).length_le
              have h2 := congrArg List.length hsplit_eq
              rw [hr] at h2
              simp only [List.length_append, List.length_cons] at h2
              omega
            exact ihn (b.dropWhile isWs) hlen' hsne hshead hslast f hfb

theorem trimWs_head_nonws (s : List Char) :
    ∀ c, (trimWs s).head? = some c → isWs c = false := by
  intro c hc
  cases ht : trimWs s with
  | nil => rw [ht] at hc; cases hc
  | cons x xs =>
      rw [ht] at hc
      simp only [List.head?_cons, Option.some.injEq] at hc
      rw [← hc]
      exact dropWhile_head_false _ (rtrimWs s) x xs ht

theorem trimWs_last_nonws (s : List Char) :
    ∀ c, (trimWs s).getLast? = some c → isWs c = false := by
  intro c hc
  have hsub : trimWs s ≠ [] := by
    intro h
    rw [h] at hc
    cases hc
  have hu_eq : (rtrimWs s).takeWhile isWs ++ trimWs s = rtrimWs s :=
    List.takeWhile_append_dropWhile isWs (rtrimWs s)
  have h1 : (rtrimWs s).getLast? = some c := by
    rw [← hu_eq, List.getLast?_append_of_ne_nil _ hsub]
    exact hc
  have h2 : (s.reverse.dropWhile isWs).head? = some c := by
    unfold rtrimWs at h1
    rwa [List.getLast?_reverse] at h1
  cases hd : s.reverse.dropWhile isWs with
  | nil => rw [hd] at h2; cases h2
  | cons x xs =>
      rw [hd] at h2
      simp only [List.head?_cons, Option.some.injEq] at h2
      rw [← h2]
      exact dropWhile_head_false _ s.reverse x xs hd

/-- Claim C3 (amended): in every segment whose token list contains at
least one token outside the wrapper set, the command token is exactly the
first non-wrapper token — wrappers are skipped as prefixes — and the
extracted name is its basename.  (The extracted name can nevertheless
coincide with a wrapper: a segment consisting solely of wrapper tokens
falls back to its first token, and the basename of a path such as
`/usr/bin/sudo` is `sudo`.) -/
theorem segmentName_first_non_wrapper (seg : List Char) (t : List Char)
    (rest : List (List Char)) (hne : trimWs seg ≠ [])
    (h : (splitWs (trimWs seg)).dropWhile (fun tok => wrappers.contains tok) = t :: rest) :
    segmentName seg = some (extractCommandName t) ∧ wrappers.contains t = false := by
  have hw : wrappers.contains t = false :=
    dropWhile_head_false (fun tok => wrappers.contains tok) _ t rest h
  have htne : t ≠ [] := by
    have hmem : t ∈ splitWs (trimWs seg) := by
      have hsub := List.dropWhile_sublist (l := splitWs (trimWs seg))
        (fun tok => wrappers.contains tok)
      refine hsub.subset ?_
      rw [h]
      exact List.mem_cons_self t rest
    exact splitWs_fields_nonempty (trimWs seg) hne (trimWs_head_nonws seg)
      (trimWs_last_nonws seg) t hmem
  refine ⟨?_, hw⟩
  simp only [segmentName]
  rw [if_neg hne, h, if_neg htne]

/-- Witness for the amended C3 at the segment `sudo rm`. -/
theorem segmentName_first_non_wrapper_witness :
    segmentName ("sudo rm".toList) = some (extractCommandName ("rm".toList)) ∧
    wrappers.contains ("rm".toList) = false :=
  segmentName_first_non_wrapper ("sudo rm".toList) ("rm".toList) [] (by decide) (by decide)

/-! ### Lemmas for whitespace collapsing (claim C10) -/

theorem collapseWsGo_append_nonws (a : List Char) (ha : wsFree a = true) (t : List Char) :
    collapseWsGo (a ++ t) false = a ++ collapseWsGo t false := by
  induction a with
  | nil => simp
  | cons c a' ih =>
      have hc : isWs c = false := by
        have := (List.all_eq_true.mp ha) c (by simp)
        simpa using this
      have ha' : wsFree a' = true := by
        unfold wsFree at ha ⊢
        rw [List.all_eq_true] at ha ⊢
        exact fun x hx => ha x (by simp [hx])
      rw [List.cons_append]
      rw [show collapseWsGo (c :: (a' ++ t)) false = c :: collapseWsGo (a' ++ t) false from by
        simp [collapseWsGo, hc]]
      rw [ih ha']
      rfl

theorem collapseWsGo_true_eq (b : List Char) :
    collapseWsGo b true = collapseWsGo (b.dropWhile isWs) false := by
  induction b with
  | nil => rfl
  | cons c b' ih =>
      cases hc : isWs c
      · simp [collapseWsGo, hc, List.dropWhile_cons]
      · simpa [collapseWsGo, hc, List.dropWhile_cons] using ih

theorem collapseWs_wsFree (s : List Char) (hs : wsFree s = true) : collapseWs s = s := by
  have h := collapseWsGo_append_nonws s hs []
  simpa [collapseWs, collapseWsGo] using h

theorem collapseWs_decomp (a : List Char) (ha : wsFree a = true) (w : Char)
    (hw : isWs w = true) (b : List Char) :
    collapseWs (a ++ w :: b) = a ++ ' ' :: collapseWs (b.dropWhile isWs) := by
  unfold collapseWs
  rw [collapseWsGo_append_nonws a ha]
  simp [collapseWsGo, hw, collapseWsGo_true_eq]

theorem ws_not_quote (c : Char) (h : isWs c = true) : isQuoteChar c = false := by
  simp only [isWs, Bool.or_eq_true, decide_eq_true_eq] at h
  rcases h with ((((h | h) | h) | h) | h) | h <;> subst h <;> decide

theorem removeEmptyQuotes_cons_ws (w : Char) (hw : isWs w = true) (t : List Char) :
    removeEmptyQuotes (w :: t) = w :: removeEmptyQuotes t := by
  cases t with
  | nil => rfl
  | cons c t' =>
      have hcond : (w = c && isQuoteChar w) = false := by
        by_cases h : w = c
        · subst h
          simp [ws_not_quote w hw]
        · simp [h]
      simp [removeEmptyQuotes, hcond]

theorem removeEmptyQuotes_ws_split (w : Char) (hw : isWs w = true) :
    ∀ (a b : List Char),
      removeEmptyQuotes (a ++ w :: b) = removeEmptyQuotes a ++ w :: removeEmptyQuotes b
  | [], b => by simpa using removeEmptyQuotes_cons_ws w hw b
  | [x], b => by
      have hxw : (x = w && isQuoteChar x) = false := by
        by_cases h : x = w
        · subst h
          simp [ws_not_quote x hw]
        · simp [h]
      rw [show ([x] : List Char) ++ w :: b = x :: w :: b from rfl]
      rw [show removeEmptyQuotes (x :: w :: b) = x :: removeEmptyQuotes (w :: b) from by
        simp [removeEmptyQuotes, hxw]]
      rw [removeEmptyQuotes_cons_ws w hw b]
      rfl
  | x :: y :: a', b => by
      rw [show (x :: y :: a') ++ w :: b = x :: y :: (a' ++ w :: b) from rfl]
      by_cases hxy : (x = y && isQuoteChar x) = true
      · rw [show removeEmptyQuotes (x :: y :: (a' ++ w :: b)) = removeEmptyQuotes (a' ++ w :: b)
          from by simp [removeEmptyQuotes, hxy]]
        rw [removeEmptyQuotes_ws_split w hw a' b]
        rw [show removeEmptyQuotes (x :: y :: a') = removeEmptyQuotes a' from by
          simp [removeEmptyQuotes, hxy]]
      · have hxy' : (x = y && isQuoteChar x) = false := by
          simpa using hxy
        rw [show removeEmptyQuotes (x :: y :: (a' ++ w :: b)) =
            x :: removeEmptyQuotes (y :: (a' ++ w :: b)) from by simp [removeEmptyQuotes, hxy']]
        rw [show (y :: (a' ++ w :: b)) = (y :: a') ++ w :: b from rfl]
        rw [removeEmptyQuotes_ws_split w hw (y :: a') b]
        rw [show removeEmptyQuotes (x :: y :: a') = x :: removeEmptyQuotes (y :: a') from by
          simp [removeEmptyQuotes, hxy']]
        rfl
      termination_by a _ => a.length

theorem removeEmptyQuotes_sublist : ∀ s : List Char, List.Sublist (removeEmptyQuotes s) s
  | [] => List.Sublist.refl _
  | [x] => List.Sublist.refl _
  | a :: b :: rest => by
      by_cases h : (a = b && isQuoteChar a) = true
      · rw [show removeEmptyQuotes (a :: b :: rest) = removeEmptyQuotes rest from by
          simp [removeEmptyQuotes, h]]
        exact ((removeEmptyQuotes_sublist rest).trans (List.sublist_cons_self b rest)).trans
          (List.sublist_cons_self a (b :: rest))
      · have h' : (a = b && isQuoteChar a) = false := by simpa using h
        rw [show removeEmptyQuotes (a :: b :: rest) = a :: removeEmptyQuotes (b :: rest) from by
          simp [removeEmptyQuotes, h']]
        exact List.Sublist.cons₂ a (removeEmptyQuotes_sublist (b :: rest))

theorem removeEmptyQuotes_wsFree (s : List Char) (h : wsFree s = true) :
    wsFree (removeEmptyQuotes s) = true := by
  unfold wsFree at *
  rw [List.all_eq_true] at *
  intro c hc
  exact h c ((removeEmptyQuotes_sublist s).subset hc)

theorem removeEmptyQuotes_wsrun (run : List Char) (hall : ∀ c ∈ run, isWs c = true)
    (x : List Char) : removeEmptyQuotes (run ++ x) = run ++ removeEmptyQuotes x := by
  induction run with
  | nil => rfl
  | cons w run' ih =>
      rw [List.cons_append, removeEmptyQuotes_cons_ws w (hall w (by simp)),
        ih (fun c hc => hall c (by simp [hc]))]
      rfl

theorem dropWhile_append_allws (run : List Char) (hall : ∀ c ∈ run, isWs c = true)
    (x : List Char) : (run ++ x).dropWhile isWs = x.dropWhile isWs := by
  induction run with
  | nil => rfl
  | cons w run' ih =>
      rw [List.cons_append, List.dropWhile_cons, if_pos (hall w (by simp))]
      exact ih (fun c hc => hall c (by simp [hc]))

theorem splitWs_dropWhile_congr (x y : List Char) (h : splitWs x = splitWs y) :
    splitWs (x.dropWhile isWs) = splitWs (y.dropWhile isWs) := by
  cases x with
  | nil =>
      have hy : y = [] := splitWs_eq_single_nil y (by rw [← h]; rfl)
      subst hy
      rfl
  | cons c x' =>
      cases hc : isWs c
      · have hx : (c :: x').dropWhile isWs = c :: x' := by simp [List.dropWhile_cons, hc]
        cases y with
        | nil =>
            have : (c :: x') = [] := splitWs_eq_single_nil _ (by rw [h]; rfl)
            cases this
        | cons d y' =>
            cases hd : isWs d
            · have hy : (d :: y').dropWhile isWs = d :: y' := by simp [List.dropWhile_cons, hd]
              rw [hx, hy, h]
            · exfalso
              have hxgo : splitWs (c :: x') = splitWsGo x' [c] false := by
                show splitWsGo (c :: x') [] false = _
                simp [splitWsGo, hc]
              have hygo : splitWs (d :: y') = [] :: splitWs (y'.dropWhile isWs) :=
                splitWs_cons_ws d hd y'
              rw [hxgo, hygo] at h
              exact splitWsGo_head_ne x' [c] (by simp) _ h
      · have hxgo : splitWs (c :: x') = [] :: splitWs (x'.dropWhile isWs) :=
          splitWs_cons_ws c hc x'
        cases y with
        | nil =>
            rw [hxgo] at h
            have h2 : splitWs (x'.dropWhile isWs) = [] := (List.cons_eq_cons.mp h).2
            exact absurd h2 (splitWsGo_ne_nil _ _ _)
        | cons d y' =>
            cases hd : isWs d
            · exfalso
              have hygo : splitWs (d :: y') = splitWsGo y' [d] false := by
                show splitWsGo (d :: y') [] false = _
                simp [splitWsGo, hd]
              rw [hxgo, hygo] at h
              exact splitWsGo_head_ne y' [d] (by simp) _ h.symm
            · have hygo : splitWs (d :: y') = [] :: splitWs (y'.dropWhile isWs) :=
                splitWs_cons_ws d hd y'
              rw [hxgo, hygo] at h
              have h2 : splitWs (x'.dropWhile isWs) = splitWs (y'.dropWhile isWs) :=
                (List.cons_eq_cons.mp h).2
              simpa [List.dropWhile_cons, hc, hd] using h2

theorem splitWs_rq_collapse (s : List Char) :
    splitWs (removeEmptyQuotes (collapseWs s)) = splitWs (removeEmptyQuotes s) := by
  suffices H : ∀ n (s : List Char), s.length ≤ n →
      splitWs (removeEmptyQuotes (collapseWs s)) = splitWs (removeEmptyQuotes s) from
    H s.length s le_rfl
  intro n
  induction n with
  | zero =>
      intro s hlen
      cases s with
      | nil => rfl
      | cons c s' => simp at hlen
  | succ n ihn =>
      intro s hlen
      have hsplit_eq : s.takeWhile (fun c => !isWs c) ++ s.dropWhile (fun c => !isWs c) = s :=
        List.takeWhile_append_dropWhile (fun c => !isWs c) s
      have ha : wsFree (s.takeWhile (fun c => !isWs c)) = true := by
        unfold wsFree
        rw [List.all_eq_true]
        intro c hc
        simpa using List.mem_takeWhile_imp hc
      cases hr : s.dropWhile (fun c => !isWs c) with
      | nil =>
          have hws : wsFree s = true := by
            rw [List.dropWhile_eq_nil_iff] at hr
            unfold wsFree
            rw [List.all_eq_true]
            exact hr
          rw [collapseWs_wsFree s hws]
      | cons w b =>
          have hw : isWs w = true := by
            have := dropWhile_head_false _ s w b hr
            simpa using this
          have hcol : collapseWs s = s.takeWhile (fun c => !isWs c) ++ ' ' ::
              collapseWs (b.dropWhile isWs) := by
            conv_lhs => rw [← hsplit_eq, hr]
            exact collapseWs_decomp _ ha w hw b
          have hrqa : wsFree (removeEmptyQuotes (s.takeWhile (fun c => !isWs c))) = true :=
            removeEmptyQuotes_wsFree _ ha
          have hrqL : removeEmptyQuotes (collapseWs s) =
              removeEmptyQuotes (s.takeWhile (fun c => !isWs c)) ++ ' ' ::
                removeEmptyQuotes (collapseWs (b.dropWhile isWs)) := by
            rw [hcol]
            exact removeEmptyQuotes_ws_split ' ' (by decide) _ _
          have hrqR : removeEmptyQuotes s =
              removeEmptyQuotes (s.takeWhile (fun c => !isWs c)) ++ w :: removeEmptyQuotes b := by
            conv_lhs => rw [← hsplit_eq, hr]
            exact removeEmptyQuotes_ws_split w hw _ b
          rw [hrqL, hrqR, splitWs_append_ws _ hrqa ' ' (by decide),
            splitWs_append_ws _ hrqa w hw]
          congr 1
          have hrun : b.takeWhile isWs ++ b.dropWhile isWs = b :=
            List.takeWhile_append_dropWhile isWs b
          have hallws : ∀ c ∈ b.takeWhile isWs, isWs c = true :=
            fun c hc => List.mem_takeWhile_imp hc
          have hrqb : removeEmptyQuotes b =
              b.takeWhile isWs ++ removeEmptyQuotes (b.dropWhile isWs) := by
            conv_lhs => rw [← hrun]
            exact removeEmptyQuotes_wsrun _ hallws _
          have hdropb : (removeEmptyQuotes b).dropWhile isWs =
              (removeEmptyQuotes (b.dropWhile isWs)).dropWhile isWs := by
            rw [hrqb]
            exact dropWhile_append_allws _ hallws _
          have hlen' : (b.dropWhile isWs).length ≤ n := by
            have h1 : (b.dropWhile isWs).length ≤ b.length :=
              (List.dropWhile_sublist isWs).length_le
            have h2 := congrArg List.length hsplit_eq
            rw [hr] at h2
            simp only [List.length_append, List.length_cons] at h2
            omega
          have hIH : splitWs (removeEmptyQuotes (collapseWs (b.dropWhile isWs))) =
              splitWs (removeEmptyQuotes (b.dropWhile isWs)) := ihn _ hlen'
          rw [hdropb]
          exact splitWs_dropWhile_congr _ _ hIH

theorem noDoubleWs_cons_nonws (c : Char) (hc : isWs c = false) (l : List Char) :
    noDoubleWs (c :: l) = noDoubleWs l := by
  cases l with
  | nil => rfl
  | cons d l' => simp [noDoubleWs, hc]

theorem noDoubleWs_append_wsfree (f : List Char) (hf : wsFree f = true) (t : List Char)
    (ht : noDoubleWs t = true) : noDoubleWs (f ++ t) = true := by
  induction f with
  | nil => simpa
  | cons c f' ih =>
      have hc : isWs c = false := by
        have := (List.all_eq_true.mp hf) c (by simp)
        simpa using this
      have hf' : wsFree f' = true := by
        unfold wsFree at hf ⊢
        rw [List.all_eq_true] at hf ⊢
        exact fun x hx => hf x (by simp [hx])
      rw [List.cons_append, noDoubleWs_cons_nonws c hc]
      exact ih hf'

theorem noDoubleWs_space_cons (l : List Char) (hnd : noDoubleWs l = true)
    (hh : ∀ c, l.head? = some c → isWs c = false) : noDoubleWs (' ' :: l) = true := by
  cases l with
  | nil => rfl
  | cons c l' =>
      have hc : isWs c = false := hh c rfl
      simp [noDoubleWs, hc, hnd]

theorem noDoubleWs_of_wsFree (f : List Char) (hf : wsFree f = true) :
    noDoubleWs f = true := by
  have h := noDoubleWs_append_wsfree f hf [] rfl
  simpa using h

theorem wsIsSpace_of_wsFree (f : List Char) (hf : wsFree f = true) :
    wsIsSpace f = true := by
  unfold wsIsSpace
  unfold wsFree at hf
  rw [List.all_eq_true] at hf ⊢
  intro c hc
  simp [show isWs c = false from by simpa using hf c hc]

theorem joinWithSpace_head_nonws (rest : List (List Char)) (g : List Char)
    (hg : wsFree g = true) (hok : g = [] → rest = []) :
    ∀ c, (joinWithSpace (g :: rest)).head? = some c → isWs c = false := by
  intro c hc
  cases hgc : g with
  | nil =>
      rw [hok hgc, hgc] at hc
      cases hc
  | cons gc g' =>
      have hgcw : isWs gc = false := by
        have := (List.all_eq_true.mp hg) gc (by simp [hgc])
        simpa using this
      have hhead : (joinWithSpace (g :: rest)).head? = some gc := by
        cases rest with
        | nil => rw [hgc]; rfl
        | cons r rs =>
            rw [show joinWithSpace (g :: r :: rs) = g ++ ' ' :: joinWithSpace (r :: rs) from rfl]
            rw [hgc]
            rfl
      rw [hhead] at hc
      injection hc with hgc2
      rw [← hgc2]
      exact hgcw

theorem joinWithSpace_noDoubleWs (rest : List (List Char)) : ∀ f : List Char,
    wsFree f = true → (∀ g ∈ rest, wsFree g = true) → tailGood rest = true →
    noDoubleWs (joinWithSpace (f :: rest)) = true ∧
      wsIsSpace (joinWithSpace (f :: rest)) = true := by
  induction rest with
  | nil =>
      intro f hf _ _
      exact ⟨noDoubleWs_of_wsFree f hf, wsIsSpace_of_wsFree f hf⟩
  | cons g rest' ih =>
      intro f hf hg htg
      have hgw : wsFree g = true := hg g (by simp)
      have hok : g = [] → rest' = [] := by
        intro hgnil
        cases rest' with
        | nil => rfl
        | cons r rs => exact absurd hgnil (tailGood_head_ne g r rs htg)
      have hrec := ih g hgw (fun x hx => hg x (by simp [hx])) (tailGood_tail g rest' htg)
      rw [show joinWithSpace (f :: g :: rest') = f ++ ' ' :: joinWithSpace (g :: rest') from rfl]
      constructor
      · exact noDoubleWs_append_wsfree f hf _
          (noDoubleWs_space_cons _ hrec.1 (joinWithSpace_head_nonws rest' g hgw hok))
      · rw [show wsIsSpace (f ++ ' ' :: joinWithSpace (g :: rest')) =
            (wsIsSpace f && wsIsSpace (' ' :: joinWithSpace (g :: rest'))) from
          List.all_append]
        rw [wsIsSpace_of_wsFree f hf]
        have : wsIsSpace (' ' :: joinWithSpace (g :: rest')) = true := by
          unfold wsIsSpace at hrec ⊢
          rw [List.all_cons, hrec.2]
          simp
        rw [this]
        rfl

/-- Claim C10: normalization collapses every whitespace run of the command
into a single space character (no two adjacent whitespace characters
survive, and every surviving whitespace character is a plain space), so
two commands that differ only in their internal whitespace runs — i.e.
have the same `collapseWs` image — normalize to the same string. -/
theorem normalizeCommand_collapses_whitespace :
    (∀ C, noDoubleWs (normalizeCommand C) = true ∧ wsIsSpace (normalizeCommand C) = true) ∧
    (∀ C, normalizeCommand (collapseWs C) = normalizeCommand C) ∧
    (∀ C₁ C₂, collapseWs C₁ = collapseWs C₂ → normalizeCommand C₁ = normalizeCommand C₂) := by
  have hpart2 : ∀ C, normalizeCommand (collapseWs C) = normalizeCommand C := by
    intro C
    cases hsp : splitWs (removeEmptyQuotes C) with
    | nil => exact absurd hsp (splitWsGo_ne_nil _ _ _)
    | cons p ps =>
        rw [normalizeCommand_eq_match, normalizeCommand_eq_match]
        rw [splitWs_rq_collapse C, hsp]
  have hpart1 : ∀ C, noDoubleWs (normalizeCommand C) = true ∧
      wsIsSpace (normalizeCommand C) = true := by
    intro C
    cases hsp : splitWs (removeEmptyQuotes C) with
    | nil => exact absurd hsp (splitWsGo_ne_nil _ _ _)
    | cons p ps =>
        have hy : normalizeCommand C = joinWithSpace (stripBackslashes p :: ps) := by
          rw [normalizeCommand_eq_match, hsp]
        have hwsf : ∀ f ∈ p :: ps, wsFree f = true := by
          intro f hf
          rw [← hsp] at hf
          exact splitWsGo_wsFree _ [] false rfl f hf
        rw [hy]
        exact joinWithSpace_noDoubleWs ps (stripBackslashes p)
          (wsFree_stripBackslashes p (hwsf p (by simp)))
          (fun g hg => hwsf g (by simp [hg]))
          (splitWs_tailGood _ p ps hsp)
  refine ⟨hpart1, hpart2, fun C₁ C₂ h => ?_⟩
  rw [← hpart2 C₁, ← hpart2 C₂, h]

/-- Witness for C10 at two commands differing only in one internal run. -/
theorem normalizeCommand_collapses_whitespace_witness :
    normalizeCommand ("ab   cd".toList) = normalizeCommand ("ab cd".toList) :=
  normalizeCommand_collapses_whitespace.2.2 _ _ (by decide)

/-- Witness for C7 at the invalid pattern `[`. -/
theorem invalid_regex_fallback_witness :
    patternBlocks ("echo a[b".toList) ["echo".toList] ("[".toList) =
      some (containsSub (toLowerStr ("echo a[b".toList)) (trimWs (toLowerStr ("[".toList)))) ∧
    validateBlocklistPattern ("[".toList) =
      some ⟨true, some PatternIssue.invalidRegexWarning⟩ :=
  ⟨invalid_regex_fallback.1 _ _ _ (by decide) (by decide) (by decide) (by decide),
   invalid_regex_fallback.2.1 _ (by decide) (by decide)⟩
